import Mathlib

/-!
Verification of the alices-mirror shared-terminal server.

This file gives a shallow embedding, in Lean, of the parts of the Go
source that the specification's testable properties talk about:

* the byte ring buffer used for late-joiner replay
  (internal/terminal/terminal.go, `ringBuffer`),
* the OSC title parser and the alices-mirror title decoder
  (terminal package, `oscTitleParser.Feed`, `parseAlicesMirrorTitle`),
* the user-level rule parser and matcher plus the upload access gate
  and the filename sanitizer / unique-file allocator (server package),
* the owner WebSocket endpoint's state handling and the shutdown path
  (internal/server/server.go),
* the snapshot-vs-broadcast enqueue ordering of the upgrade handler and
  the output broadcaster, as an explicit interleaving model, and
* `Session.Resize`.

Go byte strings are modelled as `List Char` (each `Char` standing for one
byte; all inputs of interest are ASCII) or as `List Nat` where raw bytes
flow.  Machine integers are modelled as `Int`/`Nat`; none of the embedded
code relies on overflow.  Fallible code returns `Option`.
-/

namespace AlicesMirror

/-! ## Ring buffer (internal/terminal/terminal.go, ringBuffer) -/

/-- The last `n` elements of `l` (all of `l` when `l` is shorter). -/
def lastN (n : ℕ) (l : List α) : List α :=
  l.drop (l.length - n)

/-- `ringBuffer.Append` from internal/terminal/terminal.go:
if `len(p) >= max` the contents become the last `max` bytes of `p`;
otherwise `needed = len(data)+len(p)-max` (a Go `int`, so computed in `ℤ`)
oldest bytes are dropped when positive, and `p` is appended. -/
def ringAppend (max : ℕ) (data p : List ℕ) : List ℕ :=
  if max ≤ p.length then
    p.drop (p.length - max)
  else if 0 < (data.length : ℤ) + (p.length : ℤ) - (max : ℤ) then
    data.drop ((data.length : ℤ) + (p.length : ℤ) - (max : ℤ)).toNat ++ p
  else
    data ++ p

/-- `ringBuffer.Bytes` returns a copy of the current contents; the model
has value semantics, so it is the identity. -/
def ringBytes (data : List ℕ) : List ℕ :=
  data

/-- The buffer contents after a sequence of `Append` calls, starting from
the empty buffer allocated by `newRingBuffer`. -/
def ringFromChunks (max : ℕ) (chunks : List (List ℕ)) : List ℕ :=
  chunks.foldl (ringAppend max) []

theorem lastN_of_length_le (n : ℕ) (l : List α) (h : l.length ≤ n) :
    lastN n l = l := by
  simp only [lastN]
  rw [Nat.sub_eq_zero_of_le h, List.drop_zero]

theorem ringAppend_lastN (max : ℕ) (hs p : List ℕ) :
    ringAppend max (lastN max hs) p = lastN max (hs ++ p) := by
  unfold ringAppend
  have hlen : (lastN max hs).length = hs.length - (hs.length - max) := by
    simp [lastN]
  by_cases hcap : max ≤ p.length
  · rw [if_pos hcap]
    have hidx : hs.length + p.length - max = hs.length + (p.length - max) := by omega
    simp only [lastN, List.length_append, hidx, List.drop_append]
  · rw [if_neg hcap]
    by_cases hpnil : p = []
    · subst hpnil
      rw [if_neg (by rw [hlen]; simp only [List.length_nil]; omega)]
      rw [List.append_nil, List.append_nil]
    · have hp : 0 < p.length := List.length_pos.mpr hpnil
      by_cases hsum : hs.length + p.length ≤ max
      · rw [if_neg (by rw [hlen]; omega)]
        rw [lastN_of_length_le max hs (by omega),
          lastN_of_length_le max (hs ++ p) (by simp only [List.length_append]; omega)]
      · rw [if_pos (by rw [hlen]; omega)]
        by_cases hbig : max ≤ hs.length
        · -- the retained part of hs already has full length max
          have hd : lastN max hs = hs.drop (hs.length - max) := rfl
          have ht : (((lastN max hs).length : ℤ) + (p.length : ℤ) - (max : ℤ)).toNat
              = p.length := by
            rw [hlen]; omega
          rw [ht, hd, List.drop_drop, lastN, List.length_append,
            List.drop_append_of_le_length (by omega)]
          congr 2
          omega
        · -- hs is shorter than max but hs ++ p is longer
          push_neg at hbig
          rw [lastN_of_length_le max hs (le_of_lt hbig)]
          have ht : ((hs.length : ℤ) + (p.length : ℤ) - (max : ℤ)).toNat
              = hs.length + p.length - max := by omega
          rw [ht, lastN, List.length_append,
            List.drop_append_of_le_length (by omega)]

theorem ringFromChunks_eq_lastN (max : ℕ) (chunks : List (List ℕ)) :
    ringFromChunks max chunks = lastN max chunks.flatten := by
  induction chunks using List.reverseRecOn with
  | nil => simp [ringFromChunks, lastN]
  | append_singleton chunks p ih =>
    simp only [ringFromChunks, List.foldl_append, List.foldl_cons, List.foldl_nil] at *
    rw [ih, ringAppend_lastN, List.flatten_append]
    simp

/-- C1.  After any sequence of `Append` calls the snapshot returned by
`Bytes` is exactly the last `min(cap, total)` bytes of the concatenation
of all appended chunks; in particular appending a chunk at least as long
as the capacity replaces the contents with the chunk's last `cap` bytes. -/
theorem ringBuffer_snapshot_is_suffix (cap : ℕ) :
    (∀ chunks : List (List ℕ),
      ringBytes (ringFromChunks cap chunks) = lastN cap chunks.flatten ∧
      (ringFromChunks cap chunks).length = min cap chunks.flatten.length) ∧
    (∀ data p : List ℕ, cap ≤ p.length → ringAppend cap data p = lastN cap p) := by
  refine ⟨fun chunks => ⟨ringFromChunks_eq_lastN cap chunks, ?_⟩, fun data p h => ?_⟩
  · rw [ringFromChunks_eq_lastN]
    simp only [lastN, List.length_drop]
    omega
  · unfold ringAppend
    rw [if_pos h]
    rfl

/-- Witness for C1 at concrete inputs: capacity 4, chunks `[1,2,3]` and
`[4,5,6]` leave `[3,4,5,6]`; a 5-byte append into capacity 4 keeps the
chunk's last 4 bytes. -/
theorem ringBuffer_snapshot_is_suffix_witness :
    ringBytes (ringFromChunks 4 [[1, 2, 3], [4, 5, 6]]) = [3, 4, 5, 6] ∧
    ringAppend 4 [9] [1, 2, 3, 4, 5] = [2, 3, 4, 5] := by
  constructor
  · have h := ((ringBuffer_snapshot_is_suffix 4).1 [[1, 2, 3], [4, 5, 6]]).1
    rw [h]; decide
  · have h := (ringBuffer_snapshot_is_suffix 4).2 [9] [1, 2, 3, 4, 5] (by decide)
    rw [h]; decide

/-! ## OSC title parser (terminal package, oscTitleParser) -/

/-- The parser states of `oscTitleParser` (terminal package). -/
inductive OscState
  | text
  | esc
  | osc
  | param
  | title
  | titleEsc
deriving DecidableEq

/-- `oscTitleParser`: state, numeric parameter accumulator, capture flag,
capture buffer and its cap. -/
structure OscParser where
  state : OscState
  param : ℕ
  capture : Bool
  buf : List ℕ
  maxSize : ℕ
deriving DecidableEq

/-- `newOSCTitleParser()`: TEXT state, 8 KiB cap. -/
def newOSCTitleParser : OscParser :=
  { state := .text, param := 0, capture := false, buf := [], maxSize := 8192 }

/-- One iteration of the byte loop of `oscTitleParser.Feed`.  Byte codes:
ESC = 27, `]` = 93, digits 48..57, `;` = 59, BEL = 7, backslash = 92.
Returns the updated parser and the titles emitted by this byte. -/
def oscStep (p : OscParser) (b : ℕ) : OscParser × List (List ℕ) :=
  match p.state with
  | .text =>
    if b = 27 then ({ p with state := .esc }, []) else (p, [])
  | .esc =>
    if b = 93 then
      ({ p with state := .osc, param := 0, capture := false, buf := [] }, [])
    else if b = 27 then ({ p with state := .esc }, [])
    else ({ p with state := .text }, [])
  | .osc =>
    if 48 ≤ b ∧ b ≤ 57 then ({ p with param := b - 48, state := .param }, [])
    else if b = 59 then
      ({ p with capture := p.param == 0 || p.param == 2, buf := [], state := .title }, [])
    else ({ p with state := .text }, [])
  | .param =>
    if 48 ≤ b ∧ b ≤ 57 then ({ p with param := p.param * 10 + (b - 48) }, [])
    else if b = 59 then
      ({ p with capture := p.param == 0 || p.param == 2, buf := [], state := .title }, [])
    else ({ p with state := .text }, [])
  | .title =>
    if b = 7 then
      ({ p with buf := [], state := .text },
        if p.capture ∧ p.buf ≠ [] then [p.buf] else [])
    else if b = 27 then ({ p with state := .titleEsc }, [])
    else if p.capture ∧ p.buf.length < p.maxSize then
      ({ p with buf := p.buf ++ [b] }, [])
    else (p, [])
  | .titleEsc =>
    if b = 92 then
      ({ p with buf := [], state := .text },
        if p.capture ∧ p.buf ≠ [] then [p.buf] else [])
    else if p.capture ∧ p.buf.length < p.maxSize then
      if (p.buf ++ [27]).length < p.maxSize then
        ({ p with buf := (p.buf ++ [27]) ++ [b], state := .title }, [])
      else ({ p with buf := p.buf ++ [27], state := .title }, [])
    else ({ p with state := .title }, [])

/-- Accumulating step used to fold `oscStep` over a chunk. -/
def oscStepAcc (acc : OscParser × List (List ℕ)) (b : ℕ) : OscParser × List (List ℕ) :=
  ((oscStep acc.1 b).1, acc.2 ++ (oscStep acc.1 b).2)

/-- `oscTitleParser.Feed(data)`: runs the byte loop over one chunk,
returning the updated parser and all titles emitted, in order.  (The Go
early return on an empty chunk coincides with the empty fold.) -/
def oscFeed (p : OscParser) (data : List ℕ) : OscParser × List (List ℕ) :=
  data.foldl oscStepAcc (p, [])

/-- Feeding a list of chunks to one parser in order, concatenating the
emitted titles — parser state persists across `Feed` calls. -/
def oscFeedChunks (p : OscParser) : List (List ℕ) → OscParser × List (List ℕ)
  | [] => (p, [])
  | c :: rest =>
    ((oscFeedChunks (oscFeed p c).1 rest).1,
      (oscFeed p c).2 ++ (oscFeedChunks (oscFeed p c).1 rest).2)

theorem oscFeed_foldl_acc (data : List ℕ) (p : OscParser) (acc : List (List ℕ)) :
    data.foldl oscStepAcc (p, acc) = ((oscFeed p data).1, acc ++ (oscFeed p data).2) := by
  induction data generalizing p acc with
  | nil => simp [oscFeed]
  | cons b rest ih =>
    simp only [oscFeed, List.foldl_cons, oscStepAcc, List.nil_append] at *
    rw [ih, ih ((oscStep p b).1) ((oscStep p b).2)]
    simp

theorem oscFeed_append (p : OscParser) (d1 d2 : List ℕ) :
    oscFeed p (d1 ++ d2) =
      ((oscFeed (oscFeed p d1).1 d2).1,
        (oscFeed p d1).2 ++ (oscFeed (oscFeed p d1).1 d2).2) := by
  have h1 : oscFeed p (d1 ++ d2)
      = d2.foldl oscStepAcc ((oscFeed p d1).1, (oscFeed p d1).2) := by
    simp only [oscFeed, List.foldl_append]
  rw [h1, oscFeed_foldl_acc]

/-- C4.  Feeding a byte sequence to one OSC title parser in any chunking
emits, in concatenation, the same list of titles as feeding the whole
sequence as a single chunk: parser state persists across `Feed` calls, so
chunk boundaries never change the result. -/
theorem oscParser_chunking_invariant (chunks : List (List ℕ)) :
    (oscFeedChunks newOSCTitleParser chunks).2 =
      (oscFeed newOSCTitleParser chunks.flatten).2 := by
  suffices h : ∀ (p : OscParser) (cs : List (List ℕ)),
      oscFeedChunks p cs = oscFeed p cs.flatten by
    rw [h]
  intro p cs
  induction cs generalizing p with
  | nil => simp [oscFeedChunks, oscFeed]
  | cons c rest ih =>
    simp only [oscFeedChunks, List.flatten_cons]
    rw [ih, oscFeed_append]

/-! ## alices-mirror title decoder (terminal package, parseAlicesMirrorTitle) -/

/-- The byte set `unicode.IsSpace` matches on the inputs of interest
(Go `strings.TrimSpace`): space, TAB, LF, VT, FF, CR, NEL, NBSP. -/
def isGoSpace (c : Char) : Bool :=
  c == ' ' || c == '\t' || c == '\n' || c == Char.ofNat 11 || c == Char.ofNat 12 ||
    c == '\r' || c == Char.ofNat 133 || c == Char.ofNat 160

/-- Go `strings.TrimSpace`. -/
def goTrim (l : List Char) : List Char :=
  ((l.dropWhile isGoSpace).reverse.dropWhile isGoSpace).reverse

/-- Go `strings.HasPrefix s marker`. -/
def hasPrefixList : List Char → List Char → Bool
  | _, [] => true
  | [], _ :: _ => false
  | c :: cs, d :: ds => c == d && hasPrefixList cs ds

/-- Split at the first occurrence of `sep` (Go `strings.Index` plus the
slicing around it): `some (before, after)` or `none` when absent. -/
def splitFirst (sep : Char) : List Char → Option (List Char × List Char)
  | [] => none
  | c :: rest =>
    if c = sep then some ([], rest)
    else
      match splitFirst sep rest with
      | none => none
      | some (a, b) => some (c :: a, b)

/-- Split at the last occurrence of `sep` (Go `strings.LastIndex`). -/
def splitLast (sep : Char) (l : List Char) : Option (List Char × List Char) :=
  match splitFirst sep l.reverse with
  | none => none
  | some (x, y) => some (y.reverse, x.reverse)

theorem splitFirst_eq_some_iff (sep : Char) (l a b : List Char) :
    splitFirst sep l = some (a, b) ↔ l = a ++ sep :: b ∧ sep ∉ a := by
  induction l generalizing a b with
  | nil =>
    simp [splitFirst]
  | cons c rest ih =>
    by_cases hc : c = sep
    · subst hc
      simp only [splitFirst, if_pos rfl]
      cases a with
      | nil => simp
      | cons a0 a' =>
        constructor
        · intro h
          exact absurd h (by simp)
        · rintro ⟨heq, hmem⟩
          rw [List.cons_append] at heq
          injection heq with h1 h2
          exact absurd (List.mem_cons.mpr (Or.inl h1)) hmem
    · simp only [splitFirst, if_neg hc]
      cases a with
      | nil =>
        rcases hsf : splitFirst sep rest with _ | ⟨x, y⟩ <;>
          simp_all
      | cons a0 a' =>
        rcases hsf : splitFirst sep rest with _ | ⟨x, y⟩
        · simp only [List.cons_append, List.cons.injEq, List.mem_cons]
          constructor
          · intro h
            exact absurd h (by simp)
          · rintro ⟨⟨-, hrest⟩, hmem⟩
            have hne : sep ∉ a' := fun hm => hmem (Or.inr hm)
            have hcontra := (ih a' b).mpr ⟨hrest, hne⟩
            rw [hsf] at hcontra
            exact absurd hcontra (by simp)
        · have hxy := (ih x y).mp hsf
          simp only [Option.some.injEq, Prod.mk.injEq, List.cons_append, List.cons.injEq,
            List.mem_cons]
          constructor
          · rintro ⟨⟨hx, hy⟩, hb⟩
            subst hx; subst hy; subst hb
            refine ⟨⟨rfl, hxy.1⟩, fun hm => ?_⟩
            rcases hm with hm | hm
            · exact hc hm.symm
            · exact hxy.2 hm
          · rintro ⟨⟨h0, hrest⟩, hmem⟩
            have hne : sep ∉ a' := fun hm => hmem (Or.inr hm)
            have hsp := (ih a' b).mpr ⟨hrest, hne⟩
            rw [hsf] at hsp
            injection hsp with hsp
            rw [Prod.mk.injEq] at hsp
            exact ⟨⟨h0, hsp.1⟩, hsp.2⟩

theorem splitLast_eq_some_iff (sep : Char) (l a b : List Char) :
    splitLast sep l = some (a, b) ↔ l = a ++ sep :: b ∧ sep ∉ b := by
  have key : (l = a ++ sep :: b ∧ sep ∉ b)
      ↔ splitFirst sep l.reverse = some (b.reverse, a.reverse) := by
    rw [splitFirst_eq_some_iff]
    constructor
    · rintro ⟨hl, hb⟩
      subst hl
      exact ⟨by simp [List.reverse_append], by simpa using hb⟩
    · rintro ⟨hrev, hx⟩
      have hl : l = a ++ sep :: b := by
        have h2 := congrArg List.reverse hrev
        simpa [List.reverse_append] using h2
      exact ⟨hl, by simpa using hx⟩
  rw [key]
  unfold splitLast
  rcases hsf : splitFirst sep l.reverse with _ | ⟨x, y⟩
  · simp [hsf]
  · simp only [hsf, Option.some.injEq, Prod.mk.injEq]
    constructor
    · rintro ⟨h1, h2⟩
      subst h1; subst h2
      simp
    · rintro ⟨h1, h2⟩
      subst h1; subst h2
      simp

/-- The title marker, `"alices-mirror"`. -/
def markerChars : List Char := "alices-mirror".toList

/-- `parseAlicesMirrorTitle` from the terminal package: reject unless the
first `|` has a non-empty left part beginning with the marker
(`first <= 0` rejects a missing or leading pipe), then split the rest at
its first `|`, trim both halves, and reject when both are empty. -/
def parseAlicesMirrorTitle (title : List Char) : Option (List Char × List Char) :=
  match splitFirst '|' title with
  | none => none
  | some (pre, rest) =>
    if pre = [] then none
    else if hasPrefixList pre markerChars then
      match splitFirst '|' rest with
      | none => none
      | some (cwdRaw, procRaw) =>
        if goTrim cwdRaw = [] ∧ goTrim procRaw = [] then none
        else some (goTrim cwdRaw, goTrim procRaw)
    else none

/-- The claim's shape, stated structurally: the title decomposes as
`<pre>|<c0>|<p0>` around its first two pipes, the left part begins with
the marker, and the returned values are the trimmed halves, not both
empty. -/
def titleShape (title cwd procName : List Char) : Prop :=
  ∃ pre c0 p0, title = pre ++ '|' :: (c0 ++ '|' :: p0) ∧
    '|' ∉ pre ∧ '|' ∉ c0 ∧
    hasPrefixList pre markerChars = true ∧
    cwd = goTrim c0 ∧ procName = goTrim p0 ∧ (cwd ≠ [] ∨ procName ≠ [])

theorem hasPrefixList_nil_marker : hasPrefixList [] markerChars = false := by
  decide

/-- C5.  The title decoder returns `(cwd, proc)` with ok exactly for
titles of the shape `<prefix>|<cwd>|<proc>` whose prefix begins with
`alices-mirror`, where cwd and proc are the whitespace-trimmed halves
around the second pipe and at least one of the two is non-empty. -/
theorem parseAlicesMirrorTitle_iff_titleShape (title c p : List Char) :
    parseAlicesMirrorTitle title = some (c, p) ↔ titleShape title c p := by
  constructor
  · intro h
    unfold parseAlicesMirrorTitle at h
    split at h
    · exact absurd h (by simp)
    · rename_i pre rest hsf
      obtain ⟨htitle, hpre⟩ := (splitFirst_eq_some_iff '|' title pre rest).mp hsf
      by_cases hnil : pre = []
      · rw [if_pos hnil] at h; exact absurd h (by simp)
      rw [if_neg hnil] at h
      by_cases hmk : hasPrefixList pre markerChars = true
      · rw [if_pos hmk] at h
        split at h
        · exact absurd h (by simp)
        · rename_i c0 p0 hsf2
          obtain ⟨hrest, hc0⟩ := (splitFirst_eq_some_iff '|' rest c0 p0).mp hsf2
          by_cases hboth : goTrim c0 = [] ∧ goTrim p0 = []
          · rw [if_pos hboth] at h; exact absurd h (by simp)
          · rw [if_neg hboth] at h
            injection h with h
            rw [Prod.mk.injEq] at h
            obtain ⟨hc, hp⟩ := h
            refine ⟨pre, c0, p0, by rw [htitle, hrest], hpre, hc0, hmk, hc.symm, hp.symm, ?_⟩
            rcases not_and_or.mp hboth with hne | hne
            · exact Or.inl (hc ▸ hne)
            · exact Or.inr (hp ▸ hne)
      · rw [if_neg hmk] at h; exact absurd h (by simp)
  · rintro ⟨pre, c0, p0, htitle, hpre, hc0, hmk, hc, hp, hne⟩
    have hsf : splitFirst '|' title = some (pre, c0 ++ '|' :: p0) :=
      (splitFirst_eq_some_iff '|' title pre (c0 ++ '|' :: p0)).mpr ⟨htitle, hpre⟩
    have hsf2 : splitFirst '|' (c0 ++ '|' :: p0) = some (c0, p0) :=
      (splitFirst_eq_some_iff '|' (c0 ++ '|' :: p0) c0 p0).mpr ⟨rfl, hc0⟩
    have hnil : pre ≠ [] := by
      intro hn
      rw [hn, hasPrefixList_nil_marker] at hmk
      exact Bool.false_ne_true hmk
    have hboth : ¬ (goTrim c0 = [] ∧ goTrim p0 = []) := by
      rintro ⟨h1, h2⟩
      rcases hne with hne | hne
      · exact hne (hc.trans h1)
      · exact hne (hp.trans h2)
    unfold parseAlicesMirrorTitle
    simp only [hsf, hsf2, if_neg hnil, if_pos hmk, if_neg hboth]
    rw [hc, hp]

/-- Witness for C5 at a concrete title. -/
theorem parseAlicesMirrorTitle_iff_titleShape_witness :
    parseAlicesMirrorTitle ("alices-mirror| ~/x | vim ".toList)
      = some ("~/x".toList, "vim".toList) :=
  (parseAlicesMirrorTitle_iff_titleShape _ _ _).mpr
    ⟨"alices-mirror".toList, " ~/x ".toList, " vim ".toList,
      by decide, by decide, by decide, by decide, by decide, by decide, by decide⟩

/-! ## User-level rules (server package, ParseUserLevelRules) -/

/-- Go `strings.Split` (single-char separator): accumulator-based scan. -/
def goSplitAux (sep : Char) : List Char → List Char → List (List Char)
  | [], acc => [acc.reverse]
  | c :: rest, acc =>
    if c = sep then acc.reverse :: goSplitAux sep rest []
    else goSplitAux sep rest (c :: acc)

/-- Go `strings.Split(l, sep)` for a one-character separator. -/
def goSplit (sep : Char) (l : List Char) : List (List Char) :=
  goSplitAux sep l []

/-- Decimal digit run for `strconv.Atoi`: every char must be `0`..`9`. -/
def digitsValAux : List Char → ℕ → Option ℕ
  | [], acc => some acc
  | c :: rest, acc =>
    if 48 ≤ c.toNat ∧ c.toNat ≤ 57 then digitsValAux rest (acc * 10 + (c.toNat - 48))
    else none

/-- Go `strconv.Atoi`: optional sign then one or more digits.  (Atoi also
rejects values overflowing int64; the embedding returns the exact integer
instead, which agrees with the code's later `∈ {0,1}` test on every
input.) -/
def goAtoi : List Char → Option ℤ
  | [] => none
  | '+' :: ds => if ds = [] then none else (digitsValAux ds 0).map (fun n => (n : ℤ))
  | '-' :: ds => if ds = [] then none else (digitsValAux ds 0).map (fun n => -(n : ℤ))
  | ds => (digitsValAux ds 0).map (fun n => (n : ℤ))

/-- One iteration of the `ParseUserLevelRules` loop: trim the item, split
at the last `-` (`strings.LastIndex`; `sep <= 0` and `sep >= len-1`
correspond to a missing split, an empty left part, or an empty right
part), trim both parts, parse the level and require it to be 0 or 1.
`compileUserLevelPattern` (QuoteMeta plus `* → .*`) never fails, so it
adds no error branch. -/
def parseRuleItem (rawItem : List Char) : Option (List Char × ℤ) :=
  let item := goTrim rawItem
  if item = [] then none
  else
    match splitLast '-' item with
    | none => none
    | some (patRaw, lvlRaw) =>
      if patRaw = [] ∨ lvlRaw = [] then none
      else
        if goTrim patRaw = [] ∨ goTrim lvlRaw = [] then none
        else
          match goAtoi (goTrim lvlRaw) with
          | none => none
          | some v => if v = 0 ∨ v = 1 then some (goTrim patRaw, v) else none

/-- The rule loop with early error return. -/
def parseItems : List (List Char) → Option (List (List Char × ℤ))
  | [] => some []
  | it :: rest =>
    match parseRuleItem it with
    | none => none
    | some r =>
      match parseItems rest with
      | none => none
      | some rs => some (r :: rs)

/-- `ParseUserLevelRules`: trim the input, reject when empty, split on
commas and parse every item.  (The final `len(rules) == 0` re-check in
the source is unreachable: splitting a non-empty string yields at least
one item and each item yields exactly one rule.) -/
def parseUserLevelRules (raw : List Char) : Option (List (List Char × ℤ)) :=
  if goTrim raw = [] then none
  else parseItems (goSplit ',' (goTrim raw))

/-- The claim's per-item acceptance condition, stated structurally: the
trimmed item decomposes as `<pattern>-<level>` at its last dash, both
parts are non-empty once trimmed, and the level reads as the integer 0
or 1. -/
def claimRuleOK (item : List Char) : Prop :=
  ∃ pat lvl, goTrim item = pat ++ '-' :: lvl ∧ '-' ∉ lvl ∧
    goTrim pat ≠ [] ∧ goTrim lvl ≠ [] ∧
    (goAtoi (goTrim lvl) = some 0 ∨ goAtoi (goTrim lvl) = some 1)

theorem parseRuleItem_isSome_iff (item : List Char) :
    (∃ r, parseRuleItem item = some r) ↔ claimRuleOK item := by
  unfold parseRuleItem
  by_cases hnil : goTrim item = []
  · rw [if_pos hnil]
    constructor
    · rintro ⟨r, hr⟩; exact absurd hr (by simp)
    · rintro ⟨pat, lvl, heq, -⟩
      rw [hnil] at heq
      exact absurd heq.symm (by simp)
  · rw [if_neg hnil]
    rcases hsl : splitLast '-' (goTrim item) with _ | ⟨a, b⟩
    · simp only [hsl]
      constructor
      · rintro ⟨r, hr⟩; exact absurd hr (by simp)
      · rintro ⟨pat, lvl, heq, hlvl, -⟩
        have := (splitLast_eq_some_iff '-' (goTrim item) pat lvl).mpr ⟨heq, hlvl⟩
        rw [hsl] at this
        exact absurd this (by simp)
    · obtain ⟨heq, hnb⟩ := (splitLast_eq_some_iff '-' (goTrim item) a b).mp hsl
      simp only [hsl]
      constructor
      · rintro ⟨r, hr⟩
        by_cases h1 : a = [] ∨ b = []
        · rw [if_pos h1] at hr; exact absurd hr (by simp)
        rw [if_neg h1] at hr
        by_cases h2 : goTrim a = [] ∨ goTrim b = []
        · rw [if_pos h2] at hr; exact absurd hr (by simp)
        rw [if_neg h2] at hr
        push_neg at h2
        rcases hat : goAtoi (goTrim b) with _ | v
        · simp only [hat] at hr
          exact absurd hr (by simp)
        · simp only [hat] at hr
          by_cases h3 : v = 0 ∨ v = 1
          · refine ⟨a, b, heq, hnb, h2.1, h2.2, ?_⟩
            rcases h3 with h3 | h3 <;> subst h3
            · exact Or.inl hat
            · exact Or.inr hat
          · rw [if_neg h3] at hr; exact absurd hr (by simp)
      · rintro ⟨pat, lvl, heq2, hlvl, hp, hl, hv⟩
        have hsl2 := (splitLast_eq_some_iff '-' (goTrim item) pat lvl).mpr ⟨heq2, hlvl⟩
        rw [hsl] at hsl2
        injection hsl2 with hsl2
        rw [Prod.mk.injEq] at hsl2
        obtain ⟨hap, hbl⟩ := hsl2
        subst hap; subst hbl
        have h1 : ¬ (a = [] ∨ b = []) := by
          rintro (h | h) <;> subst h <;> simp_all [goTrim]
        have h2 : ¬ (goTrim a = [] ∨ goTrim b = []) := by
          rintro (h | h)
          · exact hp h
          · exact hl h
        rw [if_neg h1, if_neg h2]
        rcases hv with hv | hv <;> rw [hv]
        · exact ⟨(goTrim a, 0), by simp⟩
        · exact ⟨(goTrim a, 1), by simp⟩

theorem parseItems_spec (items : List (List Char)) :
    ((∃ rs, parseItems items = some rs) ↔ ∀ it ∈ items, claimRuleOK it) ∧
    (∀ rs, parseItems items = some rs → rs.length = items.length) := by
  induction items with
  | nil => simp [parseItems]
  | cons it rest ih =>
    constructor
    · constructor
      · rintro ⟨rs, hrs⟩
        unfold parseItems at hrs
        rcases hit : parseRuleItem it with _ | r
        · rw [hit] at hrs; exact absurd hrs (by simp)
        · rw [hit] at hrs
          rcases hrest : parseItems rest with _ | rs0
          · rw [hrest] at hrs; exact absurd hrs (by simp)
          · intro x hx
            rcases List.mem_cons.mp hx with hx | hx
            · subst hx
              exact (parseRuleItem_isSome_iff _).mp ⟨r, hit⟩
            · exact (ih.1.mp ⟨rs0, hrest⟩) x hx
      · intro hall
        obtain ⟨r, hit⟩ := (parseRuleItem_isSome_iff it).mpr (hall it (by simp))
        obtain ⟨rs0, hrest⟩ := ih.1.mpr (fun x hx => hall x (List.mem_cons.mpr (Or.inr hx)))
        exact ⟨r :: rs0, by simp [parseItems, hit, hrest]⟩
    · intro rs hrs
      unfold parseItems at hrs
      rcases hit : parseRuleItem it with _ | r
      · rw [hit] at hrs; exact absurd hrs (by simp)
      · rw [hit] at hrs
        rcases hrest : parseItems rest with _ | rs0
        · rw [hrest] at hrs; exact absurd hrs (by simp)
        · rw [hrest] at hrs
          injection hrs with hrs
          subst hrs
          simp [ih.2 rs0 hrest]

theorem claimRuleOK_nil_false : ¬ claimRuleOK [] := by
  rintro ⟨pat, lvl, heq, -⟩
  have heq2 : ([] : List Char) = pat ++ '-' :: lvl := heq
  exact absurd heq2.symm (by simp)

/-- C6.  `ParseUserLevelRules` succeeds, with one rule per comma-separated
item, exactly when every (trimmed) item has the form `<pattern>-<level>`
with a non-empty pattern, a non-empty level, and a level reading as 0
or 1; on every other input — empty input, an item without a usable `-`
separator, an empty pattern or level part, or a level other than 0 or
1 — it errors. -/
theorem parseUserLevelRules_iff (raw : List Char) :
    ((∃ rules, parseUserLevelRules raw = some rules) ↔
      ∀ item ∈ goSplit ',' (goTrim raw), claimRuleOK item) ∧
    (∀ rules, parseUserLevelRules raw = some rules →
      rules.length = (goSplit ',' (goTrim raw)).length) := by
  unfold parseUserLevelRules
  by_cases hnil : goTrim raw = []
  · rw [if_pos hnil]
    constructor
    · constructor
      · rintro ⟨rules, h⟩; exact absurd h (by simp)
      · intro hall
        have hmem : ([] : List Char) ∈ goSplit ',' (goTrim raw) := by
          rw [hnil]; simp [goSplit, goSplitAux]
        exact absurd (hall [] hmem) claimRuleOK_nil_false
    · rintro rules h; exact absurd h (by simp)
  · rw [if_neg hnil]
    exact parseItems_spec (goSplit ',' (goTrim raw))

/-- Witness for C6: `"*-0"` parses to exactly one rule, one per item. -/
theorem parseUserLevelRules_iff_witness :
    ([(("*".toList : List Char), (0 : ℤ))]).length
      = (goSplit ',' (goTrim "*-0".toList)).length :=
  (parseUserLevelRules_iff ("*-0".toList)).2 [("*".toList, 0)] (by decide)

/-! ## Filename sanitizer and unique-file allocation (server package) -/

/-- `strings.ReplaceAll(l, a, "")` for a one-character pattern. -/
def removeChar (a : Char) (l : List Char) : List Char :=
  l.filter (fun x => x ≠ a)

/-- `strings.ReplaceAll(l, a, b)` for one-character pattern and
replacement. -/
def replaceAllChar (a b : Char) (l : List Char) : List Char :=
  l.map (fun x => if x = a then b else x)

/-- Strip trailing occurrences of `c` (the loop in Go `path.Base`). -/
def stripTrailing (c : Char) (l : List Char) : List Char :=
  (l.reverse.dropWhile (fun x => x == c)).reverse

/-- Go `path.Base`: `.` for empty, strip trailing slashes, keep the part
after the last slash, `/` when nothing remains. -/
def pathBase (p : List Char) : List Char :=
  if p = [] then ['.']
  else
    let p1 := stripTrailing '/' p
    let p2 := match splitLast '/' p1 with
      | none => p1
      | some (_, after) => after
    if p2 = [] then ['/'] else p2

/-- The characters replaced by `_` in `sanitizeFilename`. -/
def invalidChars : List Char := "<>:\"/\\|?*".toList

/-- The `strings.Map` pass of `sanitizeFilename`: drop control bytes,
replace reserved characters by `_`. -/
def sanitizeMap (l : List Char) : List Char :=
  l.filterMap (fun r =>
    if r.toNat < 32 then none
    else if invalidChars.contains r then some '_'
    else some r)

/-- `sanitizeFilename` from the server package (upload path): trim,
remove NUL, normalize backslashes to slashes, take the path basename,
reject `.` and `..`, map away control and reserved characters, re-trim
and re-check. -/
def sanitizeFilename (name : List Char) : List Char :=
  if goTrim name = [] then []
  else
    let t3 := goTrim (pathBase (replaceAllChar '\\' '/' (removeChar (Char.ofNat 0) (goTrim name))))
    if t3 = [] ∨ t3 = ['.'] ∨ t3 = ['.', '.'] then []
    else
      let cleaned := goTrim (sanitizeMap t3)
      if cleaned = [] ∨ cleaned = ['.'] ∨ cleaned = ['.', '.'] then []
      else cleaned

/-- C7.  The sanitizer's behaviour on the specified concrete inputs:
`.` and `..` are rejected (empty result); a fakepath is reduced to its
basename; `../` is stripped; `<` and `>` become underscores; a control
byte is removed. -/
theorem sanitizeFilename_cases :
    sanitizeFilename (".".toList) = [] ∧
    sanitizeFilename ("..".toList) = [] ∧
    sanitizeFilename ("C:\\fakepath\\photo.png".toList) = "photo.png".toList ∧
    sanitizeFilename ("../notes.md".toList) = "notes.md".toList ∧
    sanitizeFilename ("a<b>.txt".toList) = "a_b_.txt".toList ∧
    sanitizeFilename ("a\x01b.txt".toList) = "ab.txt".toList := by
  decide

/-- Go `filepath.Ext`: the suffix starting at the final dot in the final
path element, scanning backwards and stopping at a path separator. -/
def filepathExtAux : List Char → List Char → List Char
  | [], _ => []
  | c :: rest, acc =>
    if c = '/' then []
    else if c = '.' then '.' :: acc
    else filepathExtAux rest (c :: acc)

def filepathExt (p : List Char) : List Char :=
  filepathExtAux p.reverse []

/-- Go `strings.TrimSuffix`. -/
def trimSuffixList (s suf : List Char) : List Char :=
  if suf.isSuffixOf s then s.take (s.length - suf.length) else s

/-- `splitName` from the server package: extension from `filepath.Ext`,
base by trimming it; a fully-consumed base falls back to the whole
name. -/
def splitNameGo (filename : List Char) : List Char × List Char :=
  let ext := filepathExt filename
  let base := trimSuffixList filename ext
  if base = [] then (filename, []) else (base, ext)

/-- Decimal rendering of a counter (`fmt.Sprintf "%d"`). -/
def natDecimal (n : ℕ) : List Char :=
  (toString n).toList

/-- The candidate tried at loop index `counter` in `createUniqueFile`:
the original name first, then `base (N)ext`. -/
def candidateName (filename : List Char) (counter : ℕ) : List Char :=
  if counter = 0 then filename
  else
    (splitNameGo filename).1 ++ " (".toList ++ natDecimal counter ++ ")".toList
      ++ (splitNameGo filename).2

/-- The `createUniqueFile` loop.  The filesystem is abstracted by
`ex : name → Bool`: `O_EXCL` creation succeeds exactly on names for
which `ex` is false (other OS errors are outside the model). -/
def createUniqueAux (ex : List Char → Bool) (filename : List Char) :
    ℕ → ℕ → Option (List Char)
  | _, 0 => none
  | counter, fuel + 1 =>
    if ex (candidateName filename counter) then
      createUniqueAux ex filename (counter + 1) fuel
    else some (candidateName filename counter)

/-- `createUniqueFile`: try counters 0..9999, else
"too many name collisions". -/
def createUniqueFile (ex : List Char → Bool) (filename : List Char) : Option (List Char) :=
  createUniqueAux ex filename 0 10000

theorem createUniqueAux_some_iff (ex : List Char → Bool) (f : List Char)
    (fuel : ℕ) : ∀ (start : ℕ) (c : List Char),
    createUniqueAux ex f start fuel = some c ↔
      ∃ k, start ≤ k ∧ k < start + fuel ∧ c = candidateName f k ∧
        ex (candidateName f k) = false ∧
        ∀ j, start ≤ j → j < k → ex (candidateName f j) = true := by
  induction fuel with
  | zero =>
    intro start c
    simp only [createUniqueAux]
    constructor
    · intro h; exact absurd h (by simp)
    · rintro ⟨k, hk1, hk2, -⟩; omega
  | succ fuel ih =>
    intro start c
    simp only [createUniqueAux]
    by_cases hex : ex (candidateName f start) = true
    · rw [if_pos hex, ih]
      constructor
      · rintro ⟨k, hk1, hk2, hc, hke, hall⟩
        refine ⟨k, by omega, by omega, hc, hke, fun j hj1 hj2 => ?_⟩
        rcases Nat.eq_or_lt_of_le hj1 with hj | hj
        · rw [← hj]; exact hex
        · exact hall j hj hj2
      · rintro ⟨k, hk1, hk2, hc, hke, hall⟩
        have hks : start < k := by
          rcases Nat.eq_or_lt_of_le hk1 with hk | hk
          · rw [← hk] at hke; rw [hke] at hex; exact absurd hex (by simp)
          · exact hk
        exact ⟨k, by omega, by omega, hc, hke, fun j hj1 hj2 => hall j (by omega) hj2⟩
    · rw [if_neg hex]
      rw [Bool.not_eq_true] at hex
      constructor
      · intro h
        injection h with h
        exact ⟨start, le_refl _, by omega, h.symm, hex, fun j hj1 hj2 => by omega⟩
      · rintro ⟨k, hk1, hk2, hc, hke, hall⟩
        have hks : k = start := by
          by_contra hne
          have := hall start (le_refl _) (by omega)
          rw [this] at hex
          exact absurd hex (by simp)
        subst hks
        rw [hc]

theorem createUniqueAux_none_iff (ex : List Char → Bool) (f : List Char)
    (fuel : ℕ) : ∀ start : ℕ,
    createUniqueAux ex f start fuel = none ↔
      ∀ k, start ≤ k → k < start + fuel → ex (candidateName f k) = true := by
  induction fuel with
  | zero =>
    intro start
    simp only [createUniqueAux]
    constructor
    · intro h k hk1 hk2; omega
    · intro h; trivial
  | succ fuel ih =>
    intro start
    simp only [createUniqueAux]
    by_cases hex : ex (candidateName f start) = true
    · rw [if_pos hex, ih]
      constructor
      · intro h k hk1 hk2
        rcases Nat.eq_or_lt_of_le hk1 with hk | hk
        · rw [← hk]; exact hex
        · exact h k hk (by omega)
      · intro h k hk1 hk2
        exact h k (by omega) (by omega)
    · rw [if_neg hex]
      constructor
      · intro h; exact absurd h (by simp)
      · intro h
        exact absurd (h start (le_refl _) (by omega)) hex

/-- C8.  `createUniqueFile` returns the first free candidate — the
original name for counter 0, then `base (N)ext` for N = 1, 2, … — and
errors exactly when all 10000 candidates (original plus N = 1..9999)
already exist. -/
theorem createUniqueFile_spec (ex : List Char → Bool) (f : List Char) :
    (∀ c, createUniqueFile ex f = some c ↔
      ∃ k, k < 10000 ∧ c = candidateName f k ∧ ex (candidateName f k) = false ∧
        ∀ j, j < k → ex (candidateName f j) = true) ∧
    (createUniqueFile ex f = none ↔ ∀ k, k < 10000 → ex (candidateName f k) = true) := by
  constructor
  · intro c
    rw [createUniqueFile, createUniqueAux_some_iff]
    constructor
    · rintro ⟨k, -, hk2, hc, hke, hall⟩
      exact ⟨k, by omega, hc, hke, fun j hj => hall j (by omega) hj⟩
    · rintro ⟨k, hk2, hc, hke, hall⟩
      exact ⟨k, by omega, by omega, hc, hke, fun j _ hj => hall j hj⟩
  · rw [createUniqueFile, createUniqueAux_none_iff]
    constructor
    · intro h k hk; exact h k (by omega) (by omega)
    · intro h k _ hk; exact h k (by omega)

/-- The filesystem states of the two concrete C8 scenarios: only
`file.txt` present, then `file.txt` and `file (1).txt` present. -/
def exFileOnly (c : List Char) : Bool :=
  c == "file.txt".toList

def exFileAndOne (c : List Char) : Bool :=
  c == "file.txt".toList || c == "file (1).txt".toList

/-- Witness for C8: with `file.txt` present the first call returns
`file (1).txt`; with both present the next returns `file (2).txt`; when
every candidate exists the call errors. -/
theorem createUniqueFile_spec_witness :
    createUniqueFile exFileOnly ("file.txt".toList) = some ("file (1).txt".toList) ∧
    createUniqueFile exFileAndOne ("file.txt".toList) = some ("file (2).txt".toList) ∧
    createUniqueFile (fun _ => true) ("file.txt".toList) = none := by
  refine ⟨?_, ?_, ?_⟩
  · refine ((createUniqueFile_spec exFileOnly ("file.txt".toList)).1 _).mpr
      ⟨1, by omega, by decide, by decide, ?_⟩
    intro j hj
    have hj0 : j = 0 := by omega
    subst hj0
    decide
  · refine ((createUniqueFile_spec exFileAndOne ("file.txt".toList)).1 _).mpr
      ⟨2, by omega, by decide, by decide, ?_⟩
    intro j hj
    have hj0 : j = 0 ∨ j = 1 := by omega
    rcases hj0 with hj0 | hj0 <;> subst hj0 <;> decide
  · exact (createUniqueFile_spec (fun _ => true) ("file.txt".toList)).2.mpr
      (fun k _ => rfl)

/-! ## User levels and control-plane gating (server package) -/

/-- The two user levels: interact = 0, watch-only = 1. -/
inductive UserLevel
  | interact
  | watchOnly
deriving DecidableEq

/-- Semantics of the compiled rule pattern
`^ QuoteMeta(pattern with * → .*) $` (compileUserLevelPattern): literal
characters match themselves, `*` matches any substring, anchored at both
ends. -/
def globMatch : List Char → List Char → Bool
  | [], s => s.isEmpty
  | pc :: ps, s =>
    if pc = '*' then s.tails.any (fun t => globMatch ps t)
    else
      match s with
      | [] => false
      | ch :: rest => pc == ch && globMatch ps rest

/-- `MatchUserLevel`: first matching rule wins; unmatched IPs report
`(interact, false)`. -/
def matchUserLevel (rules : List (List Char × UserLevel)) (ip : List Char) :
    UserLevel × Bool :=
  match rules with
  | [] => (.interact, false)
  | (pat, lvl) :: rest => if globMatch pat ip then (lvl, true) else matchUserLevel rest ip

inductive UploadOutcome
  | forbidden403
  | proceed
deriving DecidableEq

/-- The access gate at the top of `Server.handleUpload` (server package):
an empty remote IP is allowed through, a matched rule must be the
interact level or the request is rejected with 403, and an unmatched IP
warns once and proceeds. -/
def uploadGate (rules : List (List Char × UserLevel)) (remoteIP : List Char) :
    UploadOutcome :=
  if goTrim remoteIP = [] then .proceed
  else
    match matchUserLevel rules remoteIP with
    | (lvl, true) => if lvl = .interact then .proceed else .forbidden403
    | (_, false) => .proceed

/-- Frames a connected client can send. -/
inductive ClientFrame
  | binaryInput (data : List ℕ)
  | resizeCtl (cols rows : ℤ)
  | resetCtl

/-- What a frame does to the session: an input write, a resize, or a
reset. -/
structure ControlEffect where
  ptyWrite : Option (List ℕ)
  resizeTo : Option (ℤ × ℤ)
  resetInvoked : Bool
deriving DecidableEq

/-- Modelled from the spec: the current `client.readPump` /
`Server.handleControl` with per-client user levels is not under src (the
server.go present there predates user levels: its `Server` has no
`userLevels` field, while `Server.handleUpload` and the callers passing
`UserLevels` into the server config require one).  Spec §4.7–§4.8: for a
watch-only client, binary input and resize are dropped server-side and
reset is ignored; an interact client's frames are forwarded to the
session. -/
def readPumpEffect (lvl : UserLevel) : ClientFrame → ControlEffect
  | .binaryInput d => if lvl = .interact then ⟨some d, none, false⟩ else ⟨none, none, false⟩
  | .resizeCtl c r => if lvl = .interact then ⟨none, some (c, r), false⟩ else ⟨none, none, false⟩
  | .resetCtl => if lvl = .interact then ⟨none, none, true⟩ else ⟨none, none, false⟩

/-- Rule list for the C2 counterexample: `*-0,9.9.9.9-1`. -/
def cexRules : List (List Char × UserLevel) :=
  [("*".toList, .interact), ("9.9.9.9".toList, .watchOnly)]

/-- C2 as stated is false: with rules `*-0,9.9.9.9-1` the remote IP
9.9.9.9 matches a watch-only (level 1) rule, yet upload proceeds (no
403) — the earlier interact rule matches first, and first match wins. -/
theorem watchOnlyRule_match_counterexample :
    (∃ r ∈ cexRules, r.2 = UserLevel.watchOnly ∧ globMatch r.1 ("9.9.9.9".toList) = true) ∧
    uploadGate cexRules ("9.9.9.9".toList) = .proceed ∧
    matchUserLevel cexRules ("9.9.9.9".toList) = (.interact, true) := by
  decide

/-- C2 (amended).  For every client with a non-empty remote IP whose
first matching user-level rule is watch-only, all four control-plane
actions are refused: binary input is not written to the PTY, resize does
not resize, reset does not reset, and upload returns 403. -/
theorem watchOnly_refuses_all (rules : List (List Char × UserLevel)) (ip : List Char)
    (hip : goTrim ip ≠ [])
    (hmatch : matchUserLevel rules ip = (.watchOnly, true)) :
    (∀ d, readPumpEffect (matchUserLevel rules ip).1 (.binaryInput d) = ⟨none, none, false⟩) ∧
    (∀ c r, readPumpEffect (matchUserLevel rules ip).1 (.resizeCtl c r) = ⟨none, none, false⟩) ∧
    readPumpEffect (matchUserLevel rules ip).1 .resetCtl = ⟨none, none, false⟩ ∧
    uploadGate rules ip = .forbidden403 := by
  rw [hmatch]
  refine ⟨fun d => rfl, fun c r => rfl, rfl, ?_⟩
  unfold uploadGate
  rw [if_neg (by simpa using hip), hmatch]
  rfl

/-- Witness for C2 (amended) with the single rule `*-1`. -/
theorem watchOnly_refuses_all_witness :
    uploadGate [("*".toList, UserLevel.watchOnly)] ("1.2.3.4".toList) = .forbidden403 :=
  (watchOnly_refuses_all [("*".toList, UserLevel.watchOnly)] ("1.2.3.4".toList)
    (by decide) (by decide)).2.2.2

/-! ## Snapshot-vs-broadcast enqueue ordering (server.go,
handleWSWithOwnerFlag and Server.broadcast) -/

/-- Messages that can land in a client's outbound queue. -/
inductive WsMsg
  | snapshotMsg
  | chunk (i : ℕ)
deriving DecidableEq

/-- The connecting client as the broadcaster can observe it: whether
`addClient` has run, and the contents of its outbound `send` queue. -/
structure WsState where
  registered : Bool
  queue : List WsMsg
deriving DecidableEq

/-- Scheduler steps: the upgrade handler's `addClient` and its blocking
snapshot send, and the broadcaster's non-blocking enqueue of one live
chunk. -/
inductive WsStep
  | register
  | sendSnapshot
  | broadcastChunk (i : ℕ)
deriving DecidableEq

/-- One step.  `register` inserts the client into the registry;
`sendSnapshot` enqueues the snapshot frame (`c.send <- msg`, capacity
128, empty at upgrade); a broadcast enqueues a chunk only when the
client is registered, dropping it when the queue is full (the
non-blocking `select` in `Server.broadcast`). -/
def wsStep (s : WsState) : WsStep → WsState
  | .register => { s with registered := true }
  | .sendSnapshot => { s with queue := s.queue ++ [.snapshotMsg] }
  | .broadcastChunk i =>
    if s.registered ∧ s.queue.length < 128 then { s with queue := s.queue ++ [.chunk i] }
    else s

/-- Run a schedule from the initial state: client not yet registered,
queue empty. -/
def wsRun (steps : List WsStep) : WsState :=
  steps.foldl wsStep { registered := false, queue := [] }

theorem wsStep_register_eq (s : WsState) :
    wsStep s .register = { s with registered := true } := rfl

theorem wsStep_snapshot_eq (s : WsState) :
    wsStep s .sendSnapshot = { s with queue := s.queue ++ [.snapshotMsg] } := rfl

theorem wsStep_broadcast_eq (s : WsState) (j : ℕ) :
    wsStep s (.broadcastChunk j)
      = if s.registered ∧ s.queue.length < 128
          then { s with queue := s.queue ++ [.chunk j] } else s := rfl

/-- C3 as stated is false: in the interleaving where the broadcaster
enqueues a live chunk between `addClient` and the snapshot send — both
are allowed by the code, which registers the client before sending the
snapshot — the live chunk broadcast after registration precedes the
snapshot in the queue. -/
theorem snapshotOrdering_counterexample :
    (wsRun [.register, .broadcastChunk 0, .sendSnapshot]).queue
        = [.chunk 0, .snapshotMsg] ∧
    ¬ ∃ q0 rest, (wsRun [.register, .broadcastChunk 0, .sendSnapshot]).queue
        = q0 ++ WsMsg.snapshotMsg :: rest ∧ WsMsg.chunk 0 ∉ q0 := by
  refine ⟨by decide, ?_⟩
  rintro ⟨q0, rest, hq, hmem⟩
  have hq2 : ([WsMsg.chunk 0, WsMsg.snapshotMsg] : List WsMsg)
      = q0 ++ WsMsg.snapshotMsg :: rest := hq
  rcases q0 with _ | ⟨x, q0'⟩
  · rw [List.nil_append] at hq2
    injection hq2 with h1 h2
    exact absurd h1 (by decide)
  · rw [List.cons_append] at hq2
    injection hq2 with h1 h2
    rcases q0' with _ | ⟨y, q0''⟩
    · exact hmem (by rw [← h1]; simp)
    · rw [List.cons_append] at h2
      injection h2 with h3 h4
      exact absurd h4 (by simp)

theorem wsRun_broadcasts_unregistered (a : List WsStep)
    (ha : ∀ x ∈ a, ∃ j, x = WsStep.broadcastChunk j) :
    a.foldl wsStep { registered := false, queue := [] }
      = { registered := false, queue := [] } := by
  induction a with
  | nil => rfl
  | cons x rest ih =>
    obtain ⟨j, hj⟩ := ha x (by simp)
    subst hj
    rw [List.foldl_cons]
    have hstep : wsStep { registered := false, queue := [] } (.broadcastChunk j)
        = { registered := false, queue := [] } := rfl
    rw [hstep]
    exact ih (fun y hy => ha y (by simp [hy]))

theorem wsRun_broadcasts_no_chunk (b : List WsStep) (i : ℕ) :
    ∀ q : List WsMsg,
    (∀ x ∈ b, ∃ j, x = WsStep.broadcastChunk j) →
    WsStep.broadcastChunk i ∉ b →
    WsMsg.chunk i ∉ q →
    (b.foldl wsStep { registered := true, queue := q }).registered = true ∧
      WsMsg.chunk i ∉ (b.foldl wsStep { registered := true, queue := q }).queue := by
  induction b with
  | nil => intro q _ _ hq; exact ⟨rfl, hq⟩
  | cons x rest ih =>
    intro q hb hbi hq
    obtain ⟨j, hj⟩ := hb x (by simp)
    subst hj
    have hji : j ≠ i := by
      intro hji
      subst hji
      exact hbi (by simp)
    rw [List.foldl_cons]
    have hrest : ∀ y ∈ rest, ∃ j, y = WsStep.broadcastChunk j :=
      fun y hy => hb y (by simp [hy])
    have hresti : WsStep.broadcastChunk i ∉ rest :=
      fun hm => hbi (by simp [hm])
    by_cases hfull : (true = true ∧ q.length < 128)
    · have hstep : wsStep { registered := true, queue := q } (.broadcastChunk j)
          = { registered := true, queue := q ++ [.chunk j] } := by
        rw [wsStep_broadcast_eq]
        exact if_pos (by simpa using hfull)
      rw [hstep]
      refine ih (q ++ [.chunk j]) hrest hresti ?_
      intro hm
      rcases List.mem_append.mp hm with hm | hm
      · exact hq hm
      · rw [List.mem_singleton] at hm
        injection hm with hm
        exact hji hm.symm
    · have hstep : wsStep { registered := true, queue := q } (.broadcastChunk j)
          = { registered := true, queue := q } := by
        rw [wsStep_broadcast_eq]
        exact if_neg (by simpa using hfull)
      rw [hstep]
      exact ih q hrest hresti hq

theorem wsRun_queue_extends (steps : List WsStep) :
    ∀ s : WsState, ∃ t, (steps.foldl wsStep s).queue = s.queue ++ t := by
  induction steps with
  | nil => intro s; exact ⟨[], by simp⟩
  | cons x rest ih =>
    intro s
    rw [List.foldl_cons]
    obtain ⟨t, ht⟩ := ih (wsStep s x)
    cases x with
    | register => exact ⟨t, ht⟩
    | sendSnapshot =>
      refine ⟨[.snapshotMsg] ++ t, ?_⟩
      rw [ht, wsStep_snapshot_eq]
      simp
    | broadcastChunk i =>
      by_cases hc : (s.registered = true ∧ s.queue.length < 128)
      · refine ⟨[.chunk i] ++ t, ?_⟩
        rw [ht, wsStep_broadcast_eq, if_pos (by simpa using hc)]
        simp
      · refine ⟨t, ?_⟩
        rw [ht, wsStep_broadcast_eq, if_neg (by simpa using hc)]

/-- C3 (amended).  In every interleaving of the upgrade handler
(`register` then `sendSnapshot`, in program order) with the output
broadcaster, the snapshot precedes in the client's outbound queue every
live chunk the broadcaster enqueues after the snapshot send; a chunk
broadcast in the window between registration and the snapshot send may
precede the snapshot (see the counterexample), which is the one
weakening the code forces on the claim. -/
theorem snapshot_precedes_later_broadcasts (a b c : List WsStep) (i : ℕ)
    (ha : ∀ x ∈ a, ∃ j, x = WsStep.broadcastChunk j)
    (hb : ∀ x ∈ b, ∃ j, x = WsStep.broadcastChunk j)
    (hbi : WsStep.broadcastChunk i ∉ b) :
    ∃ q0 rest, (wsRun (a ++ [WsStep.register] ++ b ++ [WsStep.sendSnapshot] ++ c)).queue
        = q0 ++ WsMsg.snapshotMsg :: rest ∧ WsMsg.chunk i ∉ q0 := by
  unfold wsRun
  rw [List.foldl_append, List.foldl_append, List.foldl_append, List.foldl_append]
  rw [wsRun_broadcasts_unregistered a ha]
  have hreg : List.foldl wsStep { registered := false, queue := [] } [WsStep.register]
      = { registered := true, queue := [] } := rfl
  rw [hreg]
  obtain ⟨hbreg, hbq⟩ := wsRun_broadcasts_no_chunk b i [] hb hbi (by simp)
  set sb := List.foldl wsStep { registered := true, queue := [] } b with hsb
  have hsnap : List.foldl wsStep sb [WsStep.sendSnapshot]
      = { sb with queue := sb.queue ++ [.snapshotMsg] } := rfl
  rw [hsnap]
  obtain ⟨t, ht⟩ := wsRun_queue_extends c { sb with queue := sb.queue ++ [.snapshotMsg] }
  refine ⟨sb.queue, t, ?_, hbq⟩
  rw [ht]
  simp

/-- Witness for C3 (amended): one chunk lands between registration and
the snapshot, another after the snapshot; the latter follows the
snapshot in the queue. -/
theorem snapshot_precedes_later_broadcasts_witness :
    ∃ q0 rest,
      (wsRun ([] ++ [WsStep.register] ++ [WsStep.broadcastChunk 5]
          ++ [WsStep.sendSnapshot] ++ [WsStep.broadcastChunk 7])).queue
        = q0 ++ WsMsg.snapshotMsg :: rest ∧ WsMsg.chunk 7 ∉ q0 :=
  snapshot_precedes_later_broadcasts [] [WsStep.broadcastChunk 5] [WsStep.broadcastChunk 7] 7
    (by simp)
    (fun x hx => ⟨5, List.mem_singleton.mp hx⟩)
    (by decide)

/-! ## Owner endpoint and shutdown (internal/server/server.go) -/

/-- The server state the owner endpoint touches: the configured token
(trimmed at construction), the single-owner flag, and the shutdown
once-flag with its two effects. -/
structure OwnerServer where
  ownerToken : List Char
  ownerConnected : Bool
  shutdownDone : Bool
  sessionClosed : Bool
  httpStopped : Bool
deriving DecidableEq

inductive OwnerResponse
  | unauthorized401
  | conflict409
  | upgraded
deriving DecidableEq

/-- `Server.handleWSOwner` up to the upgrade: trim the `token` query
parameter (an absent parameter reads as the empty string), answer 401
when it is empty or differs from the configured token, 409 when an owner
is already connected, otherwise mark the owner connected and proceed. -/
def handleWSOwner (s : OwnerServer) (tokenParam : Option (List Char)) :
    OwnerResponse × OwnerServer :=
  if goTrim (tokenParam.getD []) = [] ∨ goTrim (tokenParam.getD []) ≠ s.ownerToken then
    (.unauthorized401, s)
  else if s.ownerConnected then (.conflict409, s)
  else (.upgraded, { s with ownerConnected := true })

/-- `Server.requestShutdown`: a `sync.Once` around closing the session
and gracefully stopping the HTTP server. -/
def requestShutdown (s : OwnerServer) : OwnerServer :=
  if s.shutdownDone then s
  else { s with shutdownDone := true, sessionClosed := true, httpStopped := true }

/-- The deferred tail of `client.readPump`: when the exiting reader
belongs to the owner, the server requests shutdown. -/
def readPumpExit (isOwner : Bool) (s : OwnerServer) : OwnerServer :=
  if isOwner then requestShutdown s else s

/-- C9 as stated is false in one corner: `handleWSOwner` trims the
`token` query parameter before comparing, so a whitespace-padded copy of
the owner token — present but not exactly equal to the configured
token — is accepted and upgrades rather than answering 401. -/
theorem ownerToken_exact_equality_counterexample :
    (" ab12 ".toList ≠ "ab12".toList) ∧
    handleWSOwner ⟨"ab12".toList, false, false, false, false⟩ (some (" ab12 ".toList))
      = (.upgraded, ⟨"ab12".toList, true, false, false, false⟩) := by
  decide

/-- C9 (amended).  An absent token, or one that after whitespace
trimming is empty or differs from the configured owner token, answers
401 and leaves the owner
state unchanged; a valid token while an owner is connected answers 409
and leaves the state unchanged; when the connected owner's reader exits
the server's idempotent shutdown closes the session and gracefully stops
the HTTP server. -/
theorem ownerEndpoint_spec (s : OwnerServer) (tok : Option (List Char)) :
    ((goTrim (tok.getD []) = [] ∨ goTrim (tok.getD []) ≠ s.ownerToken) →
      handleWSOwner s tok = (.unauthorized401, s)) ∧
    (goTrim (tok.getD []) ≠ [] → goTrim (tok.getD []) = s.ownerToken →
      s.ownerConnected = true → handleWSOwner s tok = (.conflict409, s)) ∧
    (s.shutdownDone = false →
      (readPumpExit true s).sessionClosed = true ∧
        (readPumpExit true s).httpStopped = true) ∧
    requestShutdown (requestShutdown s) = requestShutdown s := by
  refine ⟨fun h => ?_, fun h1 h2 h3 => ?_, fun h => ?_, ?_⟩
  · unfold handleWSOwner
    rw [if_pos h]
  · unfold handleWSOwner
    rw [if_neg (by push_neg; exact ⟨h1, h2⟩), if_pos h3]
  · unfold readPumpExit requestShutdown
    rw [if_pos rfl, if_neg (by simp [h])]
    exact ⟨rfl, rfl⟩
  · by_cases h : s.shutdownDone = true
    · have h1 : requestShutdown s = s := by
        unfold requestShutdown
        rw [if_pos h]
      rw [h1, h1]
    · have h1 : requestShutdown s
          = { s with shutdownDone := true, sessionClosed := true, httpStopped := true } := by
        unfold requestShutdown
        rw [if_neg h]
      rw [h1]
      unfold requestShutdown
      rw [if_pos rfl]

/-- Witness for C9 at a concrete server state and token. -/
theorem ownerEndpoint_spec_witness :
    handleWSOwner ⟨"ab12".toList, false, false, false, false⟩ (some ("zz".toList))
        = (.unauthorized401, ⟨"ab12".toList, false, false, false, false⟩) ∧
    handleWSOwner ⟨"ab12".toList, true, false, false, false⟩ (some ("ab12".toList))
        = (.conflict409, ⟨"ab12".toList, true, false, false, false⟩) ∧
    (readPumpExit true ⟨"ab12".toList, true, false, false, false⟩).sessionClosed = true := by
  refine ⟨?_, ?_, ?_⟩
  · exact (ownerEndpoint_spec ⟨"ab12".toList, false, false, false, false⟩
      (some ("zz".toList))).1 (by decide)
  · exact (ownerEndpoint_spec ⟨"ab12".toList, true, false, false, false⟩
      (some ("ab12".toList))).2.1 (by decide) (by decide) rfl
  · exact ((ownerEndpoint_spec ⟨"ab12".toList, true, false, false, false⟩
      none).2.2.1 rfl).1

/-! ## Session.Resize (internal/terminal/terminal.go) -/

/-- The session fields `Resize` touches: the recorded last dimensions and
whether a PTY is currently present. -/
structure ResizeState where
  lastCols : ℤ
  lastRows : ℤ
  hasPty : Bool
deriving DecidableEq

/-- `Session.Resize`: reject non-positive dimensions with
"invalid terminal size", otherwise record the dimensions under the
session mutex and, when a PTY is present, call its resize (the returned
Bool records whether the PTY resize was invoked; the PTY's own error is
outside the model).  With no current PTY it returns nil. -/
def sessionResize (s : ResizeState) (cols rows : ℤ) : Option (ResizeState × Bool) :=
  if cols ≤ 0 ∨ rows ≤ 0 then none
  else some ({ s with lastCols := cols, lastRows := rows }, s.hasPty)

/-- C10 as stated is false: `Resize(0, 24)` returns the
"invalid terminal size" error and does not record the dimensions, while
the claim asserts that every pair of integers is recorded and that the
no-PTY case returns no error. -/
theorem sessionResize_claim_counterexample :
    sessionResize ⟨80, 24, false⟩ 0 24 = none ∧
    sessionResize ⟨80, 24, false⟩ 0 24 ≠ some (⟨0, 24, false⟩, false) := by
  decide

/-- C10 (amended).  For positive cols and rows, `Session.Resize` records
them as the session's last dimensions and calls the PTY's resize exactly
when a PTY is present — with no PTY it is a no-op returning no error;
non-positive dimensions are rejected with an error and nothing is
recorded. -/
theorem sessionResize_spec (s : ResizeState) (cols rows : ℤ) :
    (0 < cols → 0 < rows →
      sessionResize s cols rows
        = some ({ s with lastCols := cols, lastRows := rows }, s.hasPty)) ∧
    ((cols ≤ 0 ∨ rows ≤ 0) → sessionResize s cols rows = none) := by
  constructor
  · intro hc hr
    unfold sessionResize
    rw [if_neg (by omega)]
  · intro h
    unfold sessionResize
    rw [if_pos h]

/-- Witness for C10 (amended) at concrete dimensions, with and without a
PTY. -/
theorem sessionResize_spec_witness :
    sessionResize ⟨80, 24, true⟩ 100 40 = some (⟨100, 40, true⟩, true) ∧
    sessionResize ⟨80, 24, false⟩ 100 40 = some (⟨100, 40, false⟩, false) := by
  constructor
  · exact (sessionResize_spec ⟨80, 24, true⟩ 100 40).1 (by decide) (by decide)
  · exact (sessionResize_spec ⟨80, 24, false⟩ 100 40).1 (by decide) (by decide)

end AlicesMirror
